import Mathlib

/-!
Verification of the treap implementation in `treap.c`.

The C structure `treap_node` (search key `treeKey`, priority `heapKey`,
child pointers `L`, `R`, parent pointer `P`) is embedded as an inductive
binary tree.  Parent pointers are represented implicitly: in the C code the
back-link invariant ties every `P` field to the unique parent slot that
references the node, so a node's parent is determined by the tree shape and
each C pointer-update pair (child slot plus back-link) becomes a single
rebuild of the surrounding node.  Keys and priorities are C `unsigned int`
values used only in order comparisons, so they are embedded as `Nat`.
The pseudo-random priority drawn by `rand()` inside `treapAppend` is passed
as an explicit parameter (the spec calls the priority source injectable).
A node handle (a `treap_node_t *` in C) is observed through the node's
`treeKey`/`heapKey` pair.
-/

namespace TreapModel

/-- A treap node / subtree: left child, `treeKey`, `heapKey`, right child.
`nil` is the C `NULL` pointer.  The treap container itself holds just the
root, so a whole treap is also a `Tree`. -/
inductive Tree where
  | nil : Tree
  | node (l : Tree) (treeKey : Nat) (heapKey : Nat) (r : Tree) : Tree
deriving DecidableEq

open Tree

/-- In-order list of `(treeKey, heapKey)` pairs. -/
def pairs : Tree → List (Nat × Nat)
  | nil => []
  | node l k p r => pairs l ++ (k, p) :: pairs r

/-- In-order list of search keys (the test harness's in-order traversal). -/
def inorder (t : Tree) : List Nat := (pairs t).map Prod.fst

/-- Number of nodes. -/
def size : Tree → Nat
  | nil => 0
  | node l _ _ r => size l + size r + 1

/-- Height counted in nodes (`nil` has height 0). -/
def height : Tree → Nat
  | nil => 0
  | node l _ _ r => max (height l) (height r) + 1

/-- All keys of the tree satisfy the boolean predicate. -/
def allKeys (p : Nat → Bool) : Tree → Bool
  | nil => true
  | node l k _ r => p k && (allKeys p l && allKeys p r)

/-- Search-order invariant (invariant 1 of the spec): all keys in the left
subtree are strictly below the node's key, all keys in the right subtree
strictly above.  Strictness also gives the uniqueness invariant 4. -/
def isBST : Tree → Bool
  | nil => true
  | node l k _ r =>
      allKeys (fun x => decide (x < k)) l &&
        (allKeys (fun x => decide (k < x)) r && (isBST l && isBST r))

/-- The root priority of `t` is at most `p` (`nil` passes vacuously). -/
def prioLe : Tree → Nat → Bool
  | nil, _ => true
  | node _ _ q _, p => decide (q ≤ p)

/-- Heap-order invariant (invariant 2 of the spec): every node's priority
is `≥` the priorities of both children (max-heap). -/
def isHeap : Tree → Bool
  | nil => true
  | node l _ p r => prioLe l p && (prioLe r p && (isHeap l && isHeap r))

/-- Embedding of `treapRotate` (treap.c lines 46-71) acting on the subtree
rooted at the C argument `root`; `pk` is `pivot->treeKey`.  As in the C
code the direction is chosen by comparing `pivot->treeKey < root->treeKey`:
smaller means right-rotation (pivot is the left child), otherwise
left-rotation.  The grandparent-slot and parent-link updates of the C code
are the re-embedding of the result at the position of `root`, which is done
by the caller rebuilding the surrounding context.  If the side selected by
the comparison is `NULL` the C code would dereference it; the precondition
rules that out, and the embedding returns the tree unchanged there. -/
def treapRotate : Tree → Nat → Tree
  | nil, _ => nil
  | node l k p r, pk =>
    if pk < k then
      match l with
      | nil => node l k p r
      | node a kp pp b => node a kp pp (node b k p r)
    else
      match r with
      | nil => node l k p r
      | node b kp pp c => node (node l k p b) kp pp c

/-- Embedding of `treapFind` (treap.c lines 77-89): three-way descent from
the root, returning the found node's `(treeKey, heapKey)` or `none` for the
C `NULL` not-found signal.  The C function writes nothing; likewise the
embedding only reads `t`. -/
def treapFind : Tree → Nat → Option (Nat × Nat)
  | nil, _ => none
  | node l k p r, key =>
    if key < k then treapFind l key
    else if k < key then treapFind r key
    else some (k, p)

/-- Embedding of the tree effect of `treapUsurpingFind` (treap.c lines
95-107).  The descent mirrors `treapFind`; when the found node is a direct
child of the current node (i.e. the current node is `cur->P`), the two
`heapKey`s are swapped and `treapRotate(treap, cur->P, cur)` is performed,
which is the written-out rotation below.  A found root or an absent key
leaves the tree untouched, as in the C code. -/
def treapUsurpingFind : Tree → Nat → Tree
  | nil, _ => nil
  | node l k p r, key =>
    if key < k then
      match l with
      | nil => node l k p r
      | node a kl pl b =>
        if kl = key then node a kl p (node b k pl r)
        else node (treapUsurpingFind l key) k p r
    else if k < key then
      match r with
      | nil => node l k p r
      | node b kr pr c =>
        if kr = key then node (node l k pr b) kr p c
        else node l k p (treapUsurpingFind r key)
    else node l k p r

/-- State of the insertion walk of `treapAppend` as it unwinds: the key was
found at the bottom of the descent (`found`, the C early `return cur`), or a
new node was created and is still rising in the bubble-up loop (`bubbling`),
or the bubble-up loop has already stopped (`settled`). -/
inductive BubbleState where
  | found : BubbleState
  | bubbling : BubbleState
  | settled : BubbleState
deriving DecidableEq

/-- Result of `treapAppend`: the new tree, the bubble-up state, the returned
node handle as a `(treeKey, heapKey)` pair, and the number of rotations the
bubble-up loop performed. -/
structure AppendResult where
  tree : Tree
  state : BubbleState
  handle : Nat × Nat
  rots : Nat
deriving DecidableEq

/-- Embedding of `treapAppend` (treap.c lines 115-154) with the `rand()`
value passed in as `prio`.  The descent follows the C loop
`next = (key < cur->treeKey) ? cur->L : cur->R`, which on key equality
moves RIGHT; the equality test `key == cur->treeKey` happens only at the
bottom node of the walk, exactly as in the C code.  The bubble-up loop
`while (newNode->P != NULL && newNode->heapKey > newNode->P->heapKey)`
performs one `treapRotate(treap, newNode->P, newNode)` per stack frame on
the way back up while the state is `bubbling`. -/
def appendAux (key prio : Nat) : Tree → AppendResult
  | nil => ⟨node nil key prio nil, .bubbling, (key, prio), 0⟩
  | node l k p r =>
    if key < k then
      match l with
      | nil =>
        if prio > p then
          ⟨treapRotate (node (node nil key prio nil) k p r) key, .bubbling, (key, prio), 1⟩
        else
          ⟨node (node nil key prio nil) k p r, .settled, (key, prio), 0⟩
      | node a kl pl b =>
        let res := appendAux key prio (node a kl pl b)
        match res.state with
        | .bubbling =>
          if prio > p then
            ⟨treapRotate (node res.tree k p r) key, .bubbling, res.handle, res.rots + 1⟩
          else
            ⟨node res.tree k p r, .settled, res.handle, res.rots⟩
        | s => ⟨node res.tree k p r, s, res.handle, res.rots⟩
    else
      match r with
      | nil =>
        if key = k then ⟨node l k p r, .found, (k, p), 0⟩
        else if prio > p then
          ⟨treapRotate (node l k p (node nil key prio nil)) key, .bubbling, (key, prio), 1⟩
        else
          ⟨node l k p (node nil key prio nil), .settled, (key, prio), 0⟩
      | node c kr pr d =>
        let res := appendAux key prio (node c kr pr d)
        match res.state with
        | .bubbling =>
          if prio > p then
            ⟨treapRotate (node l k p res.tree) key, .bubbling, res.handle, res.rots + 1⟩
          else
            ⟨node l k p res.tree, .settled, res.handle, res.rots⟩
        | s => ⟨node l k p res.tree, s, res.handle, res.rots⟩

/-- The tree produced by `treapAppend`. -/
def treapAppend (t : Tree) (key prio : Nat) : Tree := (appendAux key prio t).tree

/-- The node handle returned by `treapAppend`. -/
def appendHandle (t : Tree) (key prio : Nat) : Nat × Nat := (appendAux key prio t).handle

/-- Embedding of the down-rotation loop plus splice of `treapDecouple`
(treap.c lines 162-193) acting at the removed node's position: while both
children are present, rotate with the higher-priority child
(`node->L->heapKey > node->R->heapKey` picks the left child); with at most
one child, splice the node out by redirecting the slot to the single child
(the C code checks `node->R` first, then `node->L`, then clears the slot).
Each rotation with the left child `node a kl pl b` leaves `node a kl pl ·`
fixed and pushes the removed node into the hole, so the loop computes this
priority-directed merge of the two children.  The first argument is fuel;
`size l + size r` is always enough (proved below), and the fuel-exhausted
row is never reached from `treapDecouple`.  The second component counts the
rotations the loop performed. -/
def mergeC : Nat → Tree → Tree → Tree × Nat
  | _, nil, t => (t, 0)
  | _, node a kl pl b, nil => (node a kl pl b, 0)
  | 0, node a kl pl b, node _ _ _ _ => (node a kl pl b, 0)
  | fuel + 1, node a kl pl b, node c kr pr d =>
    if pl > pr then
      let res := mergeC fuel b (node c kr pr d)
      (node a kl pl res.1, res.2 + 1)
    else
      let res := mergeC fuel (node a kl pl b) c
      (node res.1 kr pr d, res.2 + 1)

/-- Embedding of `treapDecouple` (treap.c lines 160-195).  The C function
receives the node by pointer; under the search-order and uniqueness
invariants the node of key `key` sits at the unique search position, so the
embedding descends to it by key and applies the down-rotation loop and
splice there.  The re-linking of the parent's child slot (or the treap's
root slot) is the rebuild of the surrounding context. -/
def treapDecouple : Tree → Nat → Tree
  | nil, _ => nil
  | node l k p r, key =>
    if key < k then node (treapDecouple l key) k p r
    else if k < key then node l k p (treapDecouple r key)
    else (mergeC (size l + size r) l r).1

/-- Depth (number of edges from the root) of the node reached by the search
for `key`, `none` if the search falls off the tree. -/
def findDepth : Tree → Nat → Option Nat
  | nil, _ => none
  | node l k _ r, key =>
    if key < k then (findDepth l key).map (· + 1)
    else if k < key then (findDepth r key).map (· + 1)
    else some 0

/-- `n` repeated calls of `treapUsurpingFind` for the same key. -/
def usurpN : Nat → Tree → Nat → Tree
  | 0, t, _ => t
  | n + 1, t, key => usurpN n (treapUsurpingFind t key) key

/-! Basic facts about the traversal and the invariant predicates. -/

theorem pairs_node (l : Tree) (k p : Nat) (r : Tree) :
    pairs (node l k p r) = pairs l ++ (k, p) :: pairs r := rfl

theorem inorder_nil : inorder nil = [] := rfl

theorem inorder_node (l : Tree) (k p : Nat) (r : Tree) :
    inorder (node l k p r) = inorder l ++ k :: inorder r := by
  simp [inorder, pairs_node]

theorem mem_inorder {t : Tree} {k : Nat} : k ∈ inorder t ↔ ∃ q, (k, q) ∈ pairs t := by
  simp only [inorder, List.mem_map, Prod.exists]
  constructor
  · rintro ⟨a, b, hm, rfl⟩
    exact ⟨b, hm⟩
  · rintro ⟨q, hq⟩
    exact ⟨k, q, hq, rfl⟩

theorem allKeys_iff {p : Nat → Bool} {t : Tree} :
    allKeys p t = true ↔ ∀ x ∈ inorder t, p x = true := by
  induction t with
  | nil => simp [allKeys, inorder_nil]
  | node l k q r ihl ihr =>
    simp only [allKeys, Bool.and_eq_true, ihl, ihr, inorder_node,
      List.forall_mem_append, List.forall_mem_cons]
    tauto

theorem isBST_node {l r : Tree} {k p : Nat} :
    isBST (node l k p r) = true ↔
      (∀ x ∈ inorder l, x < k) ∧ (∀ x ∈ inorder r, k < x) ∧
        isBST l = true ∧ isBST r = true := by
  simp [isBST, Bool.and_eq_true, allKeys_iff]

theorem isBST_pairwise {t : Tree} (h : isBST t = true) :
    (inorder t).Pairwise (· < ·) := by
  induction t with
  | nil => simp [inorder_nil]
  | node l k p r ihl ihr =>
    obtain ⟨hl, hr, bl, br⟩ := isBST_node.1 h
    rw [inorder_node, List.pairwise_append]
    refine ⟨ihl bl, List.pairwise_cons.2 ⟨hr, ihr br⟩, ?_⟩
    intro a ha b hb
    rcases List.mem_cons.1 hb with rfl | hb
    · exact hl a ha
    · exact lt_trans (hl a ha) (hr b hb)

theorem isBST_nodup {t : Tree} (h : isBST t = true) : (inorder t).Nodup :=
  List.Pairwise.imp (fun hab => Nat.ne_of_lt hab) (isBST_pairwise h)

/-! Correctness of `treapFind` under the search-order invariant. -/

theorem treapFind_none {t : Tree} {k : Nat} (hm : k ∉ inorder t) :
    treapFind t k = none := by
  induction t with
  | nil => rfl
  | node l key p r ihl ihr =>
    rw [inorder_node] at hm
    simp only [List.mem_append, List.mem_cons, not_or] at hm
    obtain ⟨h1, h2, h3⟩ := hm
    by_cases hk : k < key
    · simpa [treapFind, hk] using ihl h1
    · have hk2 : key < k := by omega
      simpa [treapFind, hk, hk2] using ihr h3

theorem treapFind_some {t : Tree} {k q : Nat} (hb : isBST t = true)
    (hm : (k, q) ∈ pairs t) : treapFind t k = some (k, q) := by
  induction t with
  | nil => simp [pairs] at hm
  | node l key p r ihl ihr =>
    obtain ⟨hl, hr, bl, br⟩ := isBST_node.1 hb
    rw [pairs_node] at hm
    rcases List.mem_append.1 hm with hm | hm
    · have hk : k < key := hl k (mem_inorder.2 ⟨q, hm⟩)
      simpa [treapFind, hk] using ihl bl hm
    · rcases List.mem_cons.1 hm with hm | hm
      · rw [Prod.mk.injEq] at hm
        obtain ⟨rfl, rfl⟩ := hm
        simp [treapFind]
      · have hk : key < k := hr k (mem_inorder.2 ⟨q, hm⟩)
        have hk1 : ¬ k < key := by omega
        simpa [treapFind, hk, hk1] using ihr br hm

/-- Claim C8: under the search-order (and hence uniqueness) invariant,
`treapFind` returns the unique node whose `treeKey` equals the searched key
when one exists, and the not-found signal (`none`, the C `NULL`) when no
node has that key; being a pure function of the tree, it mutates neither a
node nor the treap's root. -/
theorem treapFind_correct (t : Tree) (k : Nat) (hb : isBST t = true) :
    (treapFind t k = none ↔ k ∉ inorder t) ∧
      (∀ q, (k, q) ∈ pairs t → treapFind t k = some (k, q)) ∧
      (∀ q q', (k, q) ∈ pairs t → (k, q') ∈ pairs t → q = q') := by
  refine ⟨⟨fun hn hm => ?_, treapFind_none⟩,
    fun q hq => treapFind_some hb hq, fun q q' h1 h2 => ?_⟩
  · obtain ⟨q, hq⟩ := mem_inorder.1 hm
    rw [treapFind_some hb hq] at hn
    cases hn
  · have e1 := treapFind_some hb h1
    have e2 := treapFind_some hb h2
    rw [e1] at e2
    exact (Prod.mk.injEq .. ▸ Option.some.inj e2).2

/-- Application of `treapFind_correct` to a concrete treap: key `3` is
found with its stored priority, key `4` is reported not-found. -/
theorem treapFind_correct_app :
    isBST (node (node nil 1 5 nil) 3 30 (node nil 5 10 nil)) = true ∧
      (3, 30) ∈ pairs (node (node nil 1 5 nil) 3 30 (node nil 5 10 nil)) ∧
      4 ∉ inorder (node (node nil 1 5 nil) 3 30 (node nil 5 10 nil)) ∧
      treapFind (node (node nil 1 5 nil) 3 30 (node nil 5 10 nil)) 3 = some (3, 30) ∧
      treapFind (node (node nil 1 5 nil) 3 30 (node nil 5 10 nil)) 4 = none :=
  ⟨by decide, by decide, by decide,
   (treapFind_correct (node (node nil 1 5 nil) 3 30 (node nil 5 10 nil)) 3
      (by decide)).2.1 30 (by decide),
   (treapFind_correct (node (node nil 1 5 nil) 3 30 (node nil 5 10 nil)) 4
      (by decide)).1.2 (by decide)⟩

/-! Rotation: direction selection and in-order preservation. -/

/-- Claim C4: under the invariants, with the pivot a direct child of the
rotated node, `treapRotate` performs a right-rotation exactly when the
pivot's key is smaller than the node's key (the pivot's right subtree
becomes the node's left subtree and the node becomes the pivot's right
child) and the mirror-image left-rotation otherwise, and the in-order key
sequence is unchanged.  In this embedding the pivot taking the rotated
node's parent link and the grandparent's child slot (or the treap's root
slot) now referencing the pivot are expressed by the rotated subtree
replacing the original subtree at the same position in the surrounding
context. -/
theorem treapRotate_spec :
    (∀ a kp pp b k p r,
        isBST (node (node a kp pp b) k p r) = true →
        treapRotate (node (node a kp pp b) k p r) kp = node a kp pp (node b k p r) ∧
          inorder (node a kp pp (node b k p r)) = inorder (node (node a kp pp b) k p r)) ∧
    (∀ l k p b kp pp c,
        isBST (node l k p (node b kp pp c)) = true →
        treapRotate (node l k p (node b kp pp c)) kp = node (node l k p b) kp pp c ∧
          inorder (node (node l k p b) kp pp c) = inorder (node l k p (node b kp pp c))) := by
  constructor
  · intro a kp pp b k p r hb
    obtain ⟨hl, _, _, _⟩ := isBST_node.1 hb
    have hkp : kp < k := by
      refine hl kp ?_
      rw [inorder_node]
      exact List.mem_append.2 (Or.inr (List.mem_cons_self kp (inorder b)))
    refine ⟨by simp [treapRotate, hkp], ?_⟩
    simp [inorder_node, List.append_assoc]
  · intro l k p b kp pp c hb
    obtain ⟨_, hr, _, _⟩ := isBST_node.1 hb
    have hkp : k < kp := by
      refine hr kp ?_
      rw [inorder_node]
      exact List.mem_append.2 (Or.inr (List.mem_cons_self kp (inorder c)))
    have hkp2 : ¬ kp < k := by omega
    refine ⟨by simp [treapRotate, hkp2], ?_⟩
    simp [inorder_node, List.append_assoc]

/-- Application of `treapRotate_spec` to concrete treaps: a right-rotation
with pivot key `3` below root key `5`, and a left-rotation with pivot key
`8` above it. -/
theorem treapRotate_spec_app :
    isBST (node (node nil 3 8 nil) 5 9 nil) = true ∧
      isBST (node nil 5 9 (node nil 8 7 nil)) = true ∧
      treapRotate (node (node nil 3 8 nil) 5 9 nil) 3 = node nil 3 8 (node nil 5 9 nil) ∧
      treapRotate (node nil 5 9 (node nil 8 7 nil)) 8 = node (node nil 5 9 nil) 8 7 nil :=
  ⟨by decide, by decide,
   (treapRotate_spec.1 nil 3 8 nil 5 9 nil (by decide)).1,
   (treapRotate_spec.2 nil 5 9 nil 8 7 nil (by decide)).1⟩

/-! The frame property of `treapUsurpingFind`. -/

/-- Claim C10: when the searched key is absent or sits at the root,
`treapUsurpingFind` leaves the treap completely unchanged — the returned
tree is equal to the input tree, so no priority is swapped, no rotation is
performed, and every node's key, priority and links are as before.  (The C
code only mutates when `cur != NULL && cur->P != NULL`.) -/
theorem usurpingFind_frame (t : Tree) (k : Nat) :
    (treapFind t k = none → treapUsurpingFind t k = t) ∧
      (∀ l p r, t = node l k p r → treapUsurpingFind t k = t) := by
  constructor
  · induction t with
    | nil => intro _; rfl
    | node l key p r ihl ihr =>
      intro hf
      by_cases h1 : k < key
      · rw [treapFind, if_pos h1] at hf
        cases l with
        | nil => simp [treapUsurpingFind, h1]
        | node a kl pl b =>
          have hkl : kl ≠ k := by
            intro he
            subst he
            rw [treapFind] at hf
            simp at hf
          simpa [treapUsurpingFind, h1, hkl] using ihl hf
      · by_cases h2 : key < k
        · rw [treapFind, if_neg h1, if_pos h2] at hf
          cases r with
          | nil => simp [treapUsurpingFind, h1, h2]
          | node b kr pr c =>
            have hkr : kr ≠ k := by
              intro he
              subst he
              rw [treapFind] at hf
              simp at hf
            simpa [treapUsurpingFind, h1, h2, hkr] using ihr hf
        · rw [treapFind, if_neg h1, if_neg h2] at hf
          cases hf
  · intro l p r ht
    subst ht
    simp [treapUsurpingFind]

/-- Application of `usurpingFind_frame`: searching a concrete treap for the
absent key `7` and for the root key `4` leaves it unchanged. -/
theorem usurpingFind_frame_app :
    treapFind (node nil 4 9 (node nil 6 2 nil)) 7 = none ∧
      treapUsurpingFind (node nil 4 9 (node nil 6 2 nil)) 7 =
        node nil 4 9 (node nil 6 2 nil) ∧
      treapUsurpingFind (node nil 4 9 (node nil 6 2 nil)) 4 =
        node nil 4 9 (node nil 6 2 nil) :=
  ⟨by decide,
   (usurpingFind_frame (node nil 4 9 (node nil 6 2 nil)) 7).1 (by decide),
   (usurpingFind_frame (node nil 4 9 (node nil 6 2 nil)) 4).2 nil 9 (node nil 6 2 nil) rfl⟩

/-! Executions of the C algorithms that contradict the spec. -/

/-- Claim C1 (code bug): `treapUsurpingFind` can break the heap-order
invariant.  On the valid treap with root `(key 10, prio 90)`, left child
`(5, 20)` and right child `(15, 50)`, searching key `5` swaps the
priorities of node `5` and its parent and rotates; afterwards node `10`
holds priority `20` while its right child `15` still holds `50`, so the
max-heap property fails — contradicting the spec's invariant 2 and the
code's own comment "Switch heapKeys to preserve heap order".  The swap
only repairs the promoted pair, not the demoted parent against its other
child. -/
theorem usurpingFind_heap_violation :
    isBST (node (node nil 5 20 nil) 10 90 (node nil 15 50 nil)) = true ∧
      isHeap (node (node nil 5 20 nil) 10 90 (node nil 15 50 nil)) = true ∧
      treapUsurpingFind (node (node nil 5 20 nil) 10 90 (node nil 15 50 nil)) 5 =
        node nil 5 90 (node nil 10 20 (node nil 15 50 nil)) ∧
      isHeap (treapUsurpingFind (node (node nil 5 20 nil) 10 90 (node nil 15 50 nil)) 5)
        = false := by
  decide

/-- Claim C2 (code bug): inserting a key that is already present need not
be a no-op.  The descent loop of `treapAppend` moves RIGHT on key equality
and tests `key == cur->treeKey` only at the bottom of the walk, so on the
valid treap with root `(5, prio 2)` and right child `(7, prio 1)`,
`treapAppend` with key `5` misses the existing root node, allocates a
second node with key `5` (here with priority `0`) as the left child of
node `7`, and mutates the tree — the returned handle is the new node, not
the existing one, and key `5` now occurs twice. -/
theorem duplicate_insert_mutates :
    isBST (node nil 5 2 (node nil 7 1 nil)) = true ∧
      isHeap (node nil 5 2 (node nil 7 1 nil)) = true ∧
      5 ∈ inorder (node nil 5 2 (node nil 7 1 nil)) ∧
      treapAppend (node nil 5 2 (node nil 7 1 nil)) 5 0 =
        node nil 5 2 (node (node nil 5 0 nil) 7 1 nil) ∧
      treapAppend (node nil 5 2 (node nil 7 1 nil)) 5 0 ≠
        node nil 5 2 (node nil 7 1 nil) ∧
      List.count 5 (inorder (treapAppend (node nil 5 2 (node nil 7 1 nil)) 5 0)) = 2 := by
  decide

/-- Claim C3 (code bug): a sequence of inserts starting from the empty
treap can break the strictly-ascending in-order property, through the same
duplicate-insertion slip as in `duplicate_insert_mutates`: insert key `5`
(priority `2`), key `7` (priority `1`), then key `5` again — the in-order
key sequence becomes `[5, 5, 7]`, which is not strictly ascending. -/
theorem insert_sequence_breaks_order :
    inorder (treapAppend (treapAppend (treapAppend nil 5 2) 7 1) 5 0) = [5, 5, 7] ∧
      ¬ List.Chain' (· < ·)
          (inorder (treapAppend (treapAppend (treapAppend nil 5 2) 7 1) 5 0)) := by
  have h : inorder (treapAppend (treapAppend (treapAppend nil 5 2) 7 1) 5 0) = [5, 5, 7] := by
    decide
  refine ⟨h, ?_⟩
  rw [h]
  simp [List.chain'_cons]

/-- Claim C5 (code bug): `treapFind` right after `treapAppend` need not
return the handle `treapAppend` returned.  On the valid treap with root
`(5, prio 2)` and right child `(7, prio 1)`, inserting key `5` with
priority `0` returns the newly created duplicate node `(5, 0)`, while the
subsequent `treapFind` for key `5` stops at the original root and returns
`(5, 2)` — a different node. -/
theorem roundtrip_handle_mismatch :
    isBST (node nil 5 2 (node nil 7 1 nil)) = true ∧
      isHeap (node nil 5 2 (node nil 7 1 nil)) = true ∧
      appendHandle (node nil 5 2 (node nil 7 1 nil)) 5 0 = (5, 0) ∧
      treapFind (treapAppend (node nil 5 2 (node nil 7 1 nil)) 5 0) 5 = some (5, 2) := by
  decide

/-! Decoupling: the down-rotation loop and the splice. -/

theorem size_node (l : Tree) (k p : Nat) (r : Tree) :
    size (node l k p r) = size l + size r + 1 := rfl

theorem mergeC_inorder :
    ∀ (f : Nat) (l r : Tree), size l + size r ≤ f →
      inorder (mergeC f l r).1 = inorder l ++ inorder r := by
  intro f
  induction f with
  | zero =>
    intro l r h
    match l, r with
    | nil, t => simp [mergeC, inorder_nil]
    | node a kl pl b, nil => simp [mergeC, inorder_nil]
    | node a kl pl b, node c kr pr d =>
      rw [size_node, size_node] at h
      omega
  | succ f ih =>
    intro l r h
    match l, r with
    | nil, t => simp [mergeC, inorder_nil]
    | node a kl pl b, nil => simp [mergeC, inorder_nil]
    | node a kl pl b, node c kr pr d =>
      rw [size_node, size_node] at h
      rw [mergeC]
      by_cases hp : pl > pr
      · rw [if_pos hp]
        have hs : size b + size (node c kr pr d) ≤ f := by
          rw [size_node]
          omega
        simp only [inorder_node, ih b (node c kr pr d) hs]
        simp [inorder_node, List.append_assoc]
      · rw [if_neg hp]
        have hs : size (node a kl pl b) + size c ≤ f := by
          rw [size_node]
          omega
        simp only [inorder_node, ih (node a kl pl b) c hs]
        simp [inorder_node, List.append_assoc]

theorem treapDecouple_inorder {t : Tree} {k : Nat} (hb : isBST t = true)
    (hm : k ∈ inorder t) :
    inorder (treapDecouple t k) = (inorder t).erase k := by
  induction t with
  | nil => simp [inorder_nil] at hm
  | node l key p r ihl ihr =>
    obtain ⟨hl, hr, bl, br⟩ := isBST_node.1 hb
    rw [inorder_node] at hm
    by_cases h1 : k < key
    · have hml : k ∈ inorder l := by
        rcases List.mem_append.1 hm with h | h
        · exact h
        · rcases List.mem_cons.1 h with rfl | h
          · omega
          · exact absurd (hr k h) (by omega)
      rw [treapDecouple, if_pos h1, inorder_node, inorder_node, ihl bl hml,
        List.erase_append_left _ hml]
    · by_cases h2 : key < k
      · have hmr : k ∈ inorder r := by
          rcases List.mem_append.1 hm with h | h
          · exact absurd (hl k h) (by omega)
          · rcases List.mem_cons.1 h with rfl | h
            · omega
            · exact h
        have hnl : k ∉ inorder l := fun h => absurd (hl k h) (by omega)
        rw [treapDecouple, if_neg h1, if_pos h2, inorder_node, inorder_node, ihr br hmr,
          List.erase_append_right _ hnl,
          List.erase_cons_tail (by simpa using (by omega : ¬ key = k))]
      · have hkey : k = key := by omega
        subst hkey
        have hnl : k ∉ inorder l := fun h => absurd (hl k h) (by omega)
        rw [treapDecouple, if_neg h1, if_neg h2,
          mergeC_inorder (size l + size r) l r le_rfl, inorder_node,
          List.erase_append_right _ hnl, List.erase_cons_head]

/-- Claim C6: under the invariants, decoupling a member node removes
exactly that node: the in-order key sequence of the result is the original
sequence with the node's key erased, and no node of the resulting treap
carries the removed key — the node is fully unlinked.  In this functional
embedding the redirection of the slot that pointed to the node (the
parent's child slot or the treap's root slot) to the node's single
remaining child, and that child's parent link, are expressed by the
spliced subtree standing at the node's former position. -/
theorem treapDecouple_unlinks (t : Tree) (k : Nat) (hb : isBST t = true)
    (hm : k ∈ inorder t) :
    inorder (treapDecouple t k) = (inorder t).erase k ∧
      k ∉ inorder (treapDecouple t k) := by
  refine ⟨treapDecouple_inorder hb hm, ?_⟩
  rw [treapDecouple_inorder hb hm]
  exact fun hc => ((isBST_nodup hb).mem_erase_iff.1 hc).1 rfl

/-- Application of `treapDecouple_unlinks`: decoupling key `3` from a
concrete five-node treap built per the spec's test scenario. -/
theorem treapDecouple_unlinks_app :
    isBST (node (node nil 1 5 nil) 3 30
        (node (node nil 4 15 (node nil 5 10 nil)) 8 20 nil)) = true ∧
      3 ∈ inorder (node (node nil 1 5 nil) 3 30
        (node (node nil 4 15 (node nil 5 10 nil)) 8 20 nil)) ∧
      inorder (treapDecouple
        (node (node nil 1 5 nil) 3 30
          (node (node nil 4 15 (node nil 5 10 nil)) 8 20 nil)) 3) =
      (inorder (node (node nil 1 5 nil) 3 30
          (node (node nil 4 15 (node nil 5 10 nil)) 8 20 nil))).erase 3 ∧
      3 ∉ inorder (treapDecouple
        (node (node nil 1 5 nil) 3 30
          (node (node nil 4 15 (node nil 5 10 nil)) 8 20 nil)) 3) :=
  ⟨by decide, by decide,
   (treapDecouple_unlinks
      (node (node nil 1 5 nil) 3 30 (node (node nil 4 15 (node nil 5 10 nil)) 8 20 nil)) 3
      (by decide) (by decide)).1,
   (treapDecouple_unlinks
      (node (node nil 1 5 nil) 3 30 (node (node nil 4 15 (node nil 5 10 nil)) 8 20 nil)) 3
      (by decide) (by decide)).2⟩

/-! Promotion: `treapUsurpingFind` moves a found non-root node one level up. -/

theorem usurp_step_left_found {a : Tree} {kl pl : Nat} {b : Tree} {key p : Nat} {r : Tree}
    {k : Nat} (h1 : k < key) (he : kl = k) :
    treapUsurpingFind (node (node a kl pl b) key p r) k = node a kl p (node b key pl r) := by
  subst he
  simp [treapUsurpingFind, h1]

theorem usurp_step_left_deep {a : Tree} {kl pl : Nat} {b : Tree} {key p : Nat} {r : Tree}
    {k : Nat} (h1 : k < key) (he : kl ≠ k) :
    treapUsurpingFind (node (node a kl pl b) key p r) k =
      node (treapUsurpingFind (node a kl pl b) k) key p r := by
  simp [treapUsurpingFind, h1, he]

theorem usurp_step_right_found {l : Tree} {key p : Nat} {b : Tree} {kr pr : Nat} {c : Tree}
    {k : Nat} (h1 : ¬ k < key) (h2 : key < k) (he : kr = k) :
    treapUsurpingFind (node l key p (node b kr pr c)) k = node (node l key pr b) kr p c := by
  subst he
  simp [treapUsurpingFind, h1, h2]

theorem usurp_step_right_deep {l : Tree} {key p : Nat} {b : Tree} {kr pr : Nat} {c : Tree}
    {k : Nat} (h1 : ¬ k < key) (h2 : key < k) (he : kr ≠ k) :
    treapUsurpingFind (node l key p (node b kr pr c)) k =
      node l key p (treapUsurpingFind (node b kr pr c) k) := by
  simp [treapUsurpingFind, h1, h2, he]

theorem usurp_inorder (t : Tree) (k : Nat) :
    inorder (treapUsurpingFind t k) = inorder t := by
  induction t with
  | nil => rfl
  | node l key p r ihl ihr =>
    by_cases h1 : k < key
    · cases l with
      | nil => simp [treapUsurpingFind, h1]
      | node a kl pl b =>
        by_cases he : kl = k
        · rw [usurp_step_left_found h1 he]
          simp [inorder_node, List.append_assoc]
        · rw [usurp_step_left_deep h1 he, inorder_node, inorder_node, ihl]
    · by_cases h2 : key < k
      · cases r with
        | nil => simp [treapUsurpingFind, h1, h2]
        | node b kr pr c =>
          by_cases he : kr = k
          · rw [usurp_step_right_found h1 h2 he]
            simp [inorder_node, List.append_assoc]
          · rw [usurp_step_right_deep h1 h2 he, inorder_node, inorder_node, ihr]
      · simp [treapUsurpingFind, h1, h2]

theorem usurp_isBST {t : Tree} (k : Nat) (hb : isBST t = true) :
    isBST (treapUsurpingFind t k) = true := by
  induction t with
  | nil => exact hb
  | node l key p r ihl ihr =>
    obtain ⟨hl, hr, bl, br⟩ := isBST_node.1 hb
    by_cases h1 : k < key
    · cases l with
      | nil => simpa [treapUsurpingFind, h1] using hb
      | node a kl pl b =>
        obtain ⟨hla, hlb, ba, bb⟩ := isBST_node.1 bl
        have hklk : kl < key := hl kl (by simp [inorder_node])
        by_cases he : kl = k
        · rw [usurp_step_left_found h1 he]
          refine isBST_node.2 ⟨hla, ?_, ba, ?_⟩
          · intro x hx
            rw [inorder_node] at hx
            rcases List.mem_append.1 hx with hx | hx
            · exact hlb x hx
            · rcases List.mem_cons.1 hx with rfl | hx
              · exact hklk
              · exact lt_trans hklk (hr x hx)
          · refine isBST_node.2 ⟨?_, hr, bb, br⟩
            intro x hx
            exact hl x (by simp [inorder_node, hx])
        · rw [usurp_step_left_deep h1 he]
          refine isBST_node.2 ⟨?_, hr, ihl bl, br⟩
          intro x hx
          rw [usurp_inorder] at hx
          exact hl x hx
    · by_cases h2 : key < k
      · cases r with
        | nil => simpa [treapUsurpingFind, h1, h2] using hb
        | node b kr pr c =>
          obtain ⟨hrb, hrc, bb, bc⟩ := isBST_node.1 br
          have hkr : key < kr := hr kr (by simp [inorder_node])
          by_cases he : kr = k
          · rw [usurp_step_right_found h1 h2 he]
            refine isBST_node.2 ⟨?_, hrc, ?_, bc⟩
            · intro x hx
              rw [inorder_node] at hx
              rcases List.mem_append.1 hx with hx | hx
              · exact lt_trans (hl x hx) hkr
              · rcases List.mem_cons.1 hx with rfl | hx
                · exact hkr
                · exact hrb x hx
            · refine isBST_node.2 ⟨hl, ?_, bl, bb⟩
              intro x hx
              exact hr x (by simp [inorder_node, hx])
          · rw [usurp_step_right_deep h1 h2 he]
            refine isBST_node.2 ⟨hl, ?_, bl, ihr br⟩
            intro x hx
            rw [usurp_inorder] at hx
            exact hr x hx
      · simpa [treapUsurpingFind, h1, h2] using hb

theorem findDepth_root (l : Tree) (k p : Nat) (r : Tree) :
    findDepth (node l k p r) k = some 0 := by
  simp [findDepth]

theorem findDepth_pos {a : Tree} {kl pl : Nat} {b : Tree} {k d : Nat} (hne : kl ≠ k)
    (hd : findDepth (node a kl pl b) k = some d) : 0 < d := by
  rw [findDepth] at hd
  by_cases h1 : k < kl
  · rw [if_pos h1] at hd
    obtain ⟨d', _, h2⟩ := Option.map_eq_some'.1 hd
    omega
  · by_cases h2 : kl < k
    · rw [if_neg h1, if_pos h2] at hd
      obtain ⟨d', _, h3⟩ := Option.map_eq_some'.1 hd
      omega
    · omega

theorem usurp_findDepth {t : Tree} {k d : Nat} (hb : isBST t = true)
    (hd : findDepth t k = some (d + 1)) :
    findDepth (treapUsurpingFind t k) k = some d := by
  induction t generalizing d with
  | nil => simp [findDepth] at hd
  | node l key p r ihl ihr =>
    obtain ⟨hl, hr, bl, br⟩ := isBST_node.1 hb
    by_cases h1 : k < key
    · rw [findDepth, if_pos h1] at hd
      obtain ⟨d0, hd0, hdeq⟩ := Option.map_eq_some'.1 hd
      have hdl : findDepth l k = some d := by
        rw [hd0]
        congr 1
        omega
      cases l with
      | nil => simp [findDepth] at hdl
      | node a kl pl b =>
        by_cases he : kl = k
        · rw [he, findDepth_root] at hdl
          have hd0' : d = 0 := by
            have := Option.some.inj hdl
            omega
          subst hd0'
          rw [usurp_step_left_found h1 he, he]
          exact findDepth_root a k p (node b key pl r)
        · obtain ⟨d2, hd2⟩ : ∃ d2, d = d2 + 1 := by
            have := findDepth_pos he hdl
            exact ⟨d - 1, by omega⟩
          subst hd2
          have ihres := ihl bl hdl
          rw [usurp_step_left_deep h1 he]
          rw [findDepth, if_pos h1, ihres]
          rfl
    · by_cases h2 : key < k
      · rw [findDepth, if_neg h1, if_pos h2] at hd
        obtain ⟨d0, hd0, hdeq⟩ := Option.map_eq_some'.1 hd
        have hdr : findDepth r k = some d := by
          rw [hd0]
          congr 1
          omega
        cases r with
        | nil => simp [findDepth] at hdr
        | node b kr pr c =>
          by_cases he : kr = k
          · rw [he, findDepth_root] at hdr
            have hd0' : d = 0 := by
              have := Option.some.inj hdr
              omega
            subst hd0'
            rw [usurp_step_right_found h1 h2 he, he]
            exact findDepth_root (node l key pr b) k p c
          · obtain ⟨d2, hd2⟩ : ∃ d2, d = d2 + 1 := by
              have := findDepth_pos he hdr
              exact ⟨d - 1, by omega⟩
            subst hd2
            have ihres := ihr br hdr
            rw [usurp_step_right_deep h1 h2 he]
            rw [findDepth, if_neg h1, if_pos h2, ihres]
            rfl
      · rw [findDepth, if_neg h1, if_neg h2] at hd
        have := Option.some.inj hd
        omega

theorem usurpN_reaches_root {d : Nat} :
    ∀ {t : Tree} {k : Nat}, isBST t = true → findDepth t k = some d →
      findDepth (usurpN d t k) k = some 0 := by
  induction d with
  | zero =>
    intro t k _ hd
    simpa [usurpN] using hd
  | succ n ih =>
    intro t k hb hd
    rw [usurpN]
    exact ih (usurp_isBST k hb) (usurp_findDepth hb hd)

/-- Claim C7 (amended): under the search-order invariant, if the key is
present at depth `d + 1` (a non-root node), `treapUsurpingFind` decreases
its depth by exactly one; repeated calls move the node monotonically
toward the root, and after `d` calls the node of a key found at depth `d`
is the root.  The amendment: the code promotes unconditionally, so the
motion does not stop when the parent's priority exceeds the node's own
(the only terminal case is reaching the root); see the accompanying
counterexample. -/
theorem usurpingFind_promotion (t : Tree) (k d : Nat) (hb : isBST t = true) :
    (findDepth t k = some (d + 1) → findDepth (treapUsurpingFind t k) k = some d) ∧
      (findDepth t k = some d → findDepth (usurpN d t k) k = some 0) :=
  ⟨fun h => usurp_findDepth hb h, fun h => usurpN_reaches_root hb h⟩

/-- Application of `usurpingFind_promotion`: key `1` sits at depth 2 of a
concrete treap; one promotion brings it to depth 1, two bring it to the
root. -/
theorem usurpingFind_promotion_app :
    isBST (node (node (node nil 1 1 nil) 3 5 nil) 7 9 nil) = true ∧
      findDepth (node (node (node nil 1 1 nil) 3 5 nil) 7 9 nil) 1 = some 2 ∧
      findDepth (treapUsurpingFind (node (node (node nil 1 1 nil) 3 5 nil) 7 9 nil) 1) 1 =
        some 1 ∧
      findDepth (usurpN 2 (node (node (node nil 1 1 nil) 3 5 nil) 7 9 nil) 1) 1 = some 0 :=
  ⟨by decide, by decide,
   (usurpingFind_promotion (node (node (node nil 1 1 nil) 3 5 nil) 7 9 nil) 1 1
      (by decide)).1 (by decide),
   (usurpingFind_promotion (node (node (node nil 1 1 nil) 3 5 nil) 7 9 nil) 1 2
      (by decide)).2 (by decide)⟩

/-- Counterexample to claim C7 as stated: the claim says repeated calls
move the node toward the root "until it becomes root or its parent's
priority exceeds its own".  On the valid treap with root `(1, prio 5)` and
right child `(2, prio 3)`, the parent's priority `5` exceeds the node's
priority `3`, yet `treapUsurpingFind` still promotes node `2` from depth 1
to the root — the code's promotion is unconditional and the priority
condition never stops it. -/
theorem usurpingFind_promotes_despite_parent_priority :
    isBST (node nil 1 5 (node nil 2 3 nil)) = true ∧
      isHeap (node nil 1 5 (node nil 2 3 nil)) = true ∧
      5 > 3 ∧
      findDepth (node nil 1 5 (node nil 2 3 nil)) 2 = some 1 ∧
      findDepth (treapUsurpingFind (node nil 1 5 (node nil 2 3 nil)) 2) 2 = some 0 := by
  decide

/-! Termination: rotation counts of the two loops. -/

theorem height_node (l : Tree) (k p : Nat) (r : Tree) :
    height (node l k p r) = max (height l) (height r) + 1 := rfl

theorem appendAux_rots_le (key prio : Nat) (t : Tree) :
    (appendAux key prio t).rots ≤ height t := by
  induction t with
  | nil => simp [appendAux, height]
  | node l k p r ihl ihr =>
    rw [appendAux.eq_def]
    split
    · simp_all
    rename_i l2 k2 p2 r2 heq
    injection heq with e1 e2 e3 e4
    subst e1
    subst e2
    subst e3
    subst e4
    have hml := Nat.le_max_left (height l) (height r)
    have hmr := Nat.le_max_right (height l) (height r)
    by_cases h1 : key < k
    · rw [if_pos h1]
      cases l with
      | nil =>
        by_cases hp : prio > p <;> simp [hp, height_node]
      | node a kl pl b =>
        cases hs : (appendAux key prio (node a kl pl b)).state with
        | found =>
          simp only [hs]
          rw [height_node]
          have := ihl
          omega
        | bubbling =>
          by_cases hp : prio > p <;> simp only [hs, hp, if_pos, if_neg, ite_true,
            ite_false, reduceIte] <;> rw [height_node] <;> have := ihl <;> omega
        | settled =>
          simp only [hs]
          rw [height_node]
          have := ihl
          omega
    · rw [if_neg h1]
      cases r with
      | nil =>
        by_cases hk : key = k
        · simp [hk, height_node]
        · by_cases hp : prio > p <;> simp [hk, hp, height_node]
      | node c kr pr d =>
        cases hs : (appendAux key prio (node c kr pr d)).state with
        | found =>
          simp only [hs]
          rw [height_node]
          have := ihr
          omega
        | bubbling =>
          by_cases hp : prio > p <;> simp only [hs, hp, if_pos, if_neg, ite_true,
            ite_false, reduceIte] <;> rw [height_node] <;> have := ihr <;> omega
        | settled =>
          simp only [hs]
          rw [height_node]
          have := ihr
          omega

theorem mergeC_rots_le : ∀ (f : Nat) (l r : Tree), (mergeC f l r).2 ≤ f := by
  intro f
  induction f with
  | zero =>
    intro l r
    match l, r with
    | nil, t => simp [mergeC]
    | node a kl pl b, nil => simp [mergeC]
    | node a kl pl b, node c kr pr d => simp [mergeC]
  | succ f ih =>
    intro l r
    match l, r with
    | nil, t => simp [mergeC]
    | node a kl pl b, nil => simp [mergeC]
    | node a kl pl b, node c kr pr d =>
      rw [mergeC]
      by_cases hp : pl > pr
      · rw [if_pos hp]
        have := ih b (node c kr pr d)
        simpa using this
      · rw [if_neg hp]
        have := ih (node a kl pl b) c
        simpa using this

/-- Claim C9 (amended): both loops terminate along a well-founded measure,
and the number of rotations they perform is bounded — for the bubble-up
loop of `treapAppend` by the tree's height (each rotation moves the new
node one level up along the descent path), and for the down-rotation loop
of `treapDecouple` by the size of the decoupled node's subtree (the fuel
`size l + size r` of the loop embedding `mergeC` is an upper bound on its
rotation count, and suffices to run the loop to completion).  The
amendment: the rotation count of the decouple loop is bounded by the
subtree SIZE, not by the tree depth — the accompanying counterexample
shows a treap of height 4 whose root takes 5 rotations to decouple. -/
theorem rotation_count_bounds (t : Tree) (key prio : Nat) (l r : Tree) :
    (appendAux key prio t).rots ≤ height t ∧
      (mergeC (size l + size r) l r).2 ≤ size l + size r :=
  ⟨appendAux_rots_le key prio t, mergeC_rots_le (size l + size r) l r⟩

/-- Counterexample to claim C9 as stated: the claim bounds the rotations
of every loop by the tree depth.  On the valid 7-node treap below (height
4, i.e. maximum node depth 3), decoupling the root performs 5 down-
rotations — more than the tree depth however it is counted.  The loop's
rotation count is bounded by the subtree size, not the depth. -/
theorem decouple_rotations_exceed_depth :
    isBST (node (node nil 20 90 (node nil 30 70 (node nil 35 50 nil))) 50 1000
        (node (node (node nil 55 40 nil) 60 60 nil) 70 80 nil)) = true ∧
      isHeap (node (node nil 20 90 (node nil 30 70 (node nil 35 50 nil))) 50 1000
        (node (node (node nil 55 40 nil) 60 60 nil) 70 80 nil)) = true ∧
      height (node (node nil 20 90 (node nil 30 70 (node nil 35 50 nil))) 50 1000
        (node (node (node nil 55 40 nil) 60 60 nil) 70 80 nil)) = 4 ∧
      (mergeC
          (size (node nil 20 90 (node nil 30 70 (node nil 35 50 nil))) +
            size (node (node (node nil 55 40 nil) 60 60 nil) 70 80 nil))
          (node nil 20 90 (node nil 30 70 (node nil 35 50 nil)))
          (node (node (node nil 55 40 nil) 60 60 nil) 70 80 nil)).2 = 5 := by
  decide

end TreapModel
